import Mathlib

/-!
# Verification of the time-sliced fiber renderer and task scheduler

This development embeds the repository's three source files in Lean 4 and
proves properties of them:

* `src/react16/react/render-dom.js` — the interruptible fiber traversal
  (`render`, `createDom`, `workLoop`, `performUnitOfWork`);
* `src/unnamed/part_000` — the naive uninterruptible recursive `render`;
* `src/task-splitting-example.js` — the expiring task queue
  (`scheduleTask`, `performTask` over `takes` / `isPerformingTash`).

Modelling conventions:

* Element descriptors become the inductive `Elem`; a missing `type`
  (JavaScript `undefined`) is `Option.none`.
* DOM nodes become the inductive `DomNode`; `document.createElement(x)`
  string-coerces its argument, so a missing type yields tag `"undefined"`.
* The mutable fiber graph (`parent` / `child` / `sibling` pointers built by
  `performUnitOfWork`) is addressed by *reversed child-index paths*: the
  fiber for the i-th child of the fiber at path `p` has path `i :: p`, and
  the synthetic root fiber seeded by `render` has path `[]`.  Because the
  source builds each fiber's `child`/`sibling` links during its parent's
  `performUnitOfWork` call — strictly before any of those links are read —
  the link structure read by the traversal coincides with the functions
  `nextPath` / `completeUnit` below on the element tree.
* The side effects of a unit of work (constructing an output node,
  attaching it to the parent fiber's output node) are recorded in an
  explicit event trace (`Event`).
* Host time (`deadline.timeRemaining()`, `performance.now()`) is modelled
  by explicit budget functions and a monotone counter.
-/

/-- An element descriptor: `type` (`none` models a missing/undefined kind),
the non-`children` properties, and the ordered `props.children` list. -/
inductive Elem where
  | mk (type : Option String) (props : List (String × String)) (children : List Elem)
namespace Elem

def type : Elem → Option String
  | .mk t _ _ => t

def props : Elem → List (String × String)
  | .mk _ pr _ => pr

def children : Elem → List Elem
  | .mk _ _ cs => cs

end Elem

/-- A constructed output (DOM) node: either a text node
(`document.createTextNode('')` with properties assigned afterwards) or an
element node with a tag. -/
inductive DomNode where
  | text (attrs : List (String × String)) (children : List DomNode)
  | elem (tag : String) (attrs : List (String × String)) (children : List DomNode)

/-- `isProperty` from `createDom` in `src/react16/react/render-dom.js`:
every prop except the nested-children list is an output attribute. -/
def isProperty (key : String) : Bool := key != "children"

/-- JavaScript string coercion of the element type passed to
`document.createElement`: `undefined` coerces to the string `"undefined"`. -/
def strOfType : Option String → String
  | some s => s
  | none => "undefined"

/-- `createDom(fiber)` from `src/react16/react/render-dom.js`: construct a
text node when `fiber.type === 'TEXT_ELEMENT'`, otherwise
`document.createElement(fiber.type)`; then copy every non-`children` prop
onto the node.  The node starts with no children. -/
def createDom (fiber : Elem) : DomNode :=
  if fiber.type = some "TEXT_ELEMENT" then
    DomNode.text (fiber.props.filter fun kv => isProperty kv.1) []
  else
    DomNode.elem (strOfType fiber.type) (fiber.props.filter fun kv => isProperty kv.1) []

/-- Fiber addresses: reversed child-index paths.  `[]` is the synthetic
root fiber seeded by `render`; `i :: p` is the fiber created for the i-th
child descriptor of the fiber at `p`. -/
abbrev FiberPath := List Nat

/-- The synthetic root work node seeded by `render(element, container)`:
its `dom` is the container (pre-set, so `createDom` is never called on it),
its props hold the single child `[element]`, and it has no type. -/
def rootFiber (e : Elem) : Elem := Elem.mk none [] [e]

/-- The element reached from `T` by the reversed path `p`
(`elemAt T (i :: q)` is child `i` of the element at `q`). -/
def elemAt (T : Elem) : FiberPath → Option Elem
  | [] => some T
  | i :: q => (elemAt T q).bind fun a => a.children[i]?

/-- Number of children of the element at `p` (0 if the path is invalid). -/
def childCount (T : Elem) (p : FiberPath) : Nat :=
  match elemAt T p with
  | some a => a.children.length
  | none => 0

/-- The upward walk at the end of `performUnitOfWork`
(`while (nextFiber) { if (nextFiber.sibling) return nextFiber.sibling;
nextFiber = nextFiber.parent }`): return the first sibling of an ancestor
(or of the fiber itself), or `none` when the walk passes the root. -/
def completeUnit (T : Elem) : FiberPath → Option FiberPath
  | [] => none
  | i :: q => if i + 1 < childCount T q then some ((i + 1) :: q) else completeUnit T q

/-- The next unit of work returned by `performUnitOfWork`: the first child
if one exists (`if (fiber.child) return fiber.child`), otherwise the upward
sibling walk `completeUnit`. -/
def nextPath (T : Elem) (p : FiberPath) : Option FiberPath :=
  if 0 < childCount T p then some (0 :: p) else completeUnit T p

/-- Observable side effects of the traversal engine:
`visit p` marks the start of `performUnitOfWork` on the fiber at `p`;
`create p` marks the `createDom` call for it; `attach q c` marks
`fiber.parent.dom.appendChild(fiber.dom)` attaching the output node of the
fiber at `c` to the output node of the fiber at `q`. -/
inductive Event where
  | visit (p : FiberPath)
  | create (p : FiberPath)
  | attach (parentPath : FiberPath) (childPath : FiberPath)
deriving DecidableEq, Repr

/-- The events emitted by one `performUnitOfWork` call on the fiber at `p`:
the root fiber (`p = []`) has a pre-set `dom` (the container) and no
parent, so it emits neither a `create` nor an `attach`; every other fiber
is created with `dom: null` and a parent, so it constructs its output node
and attaches it to its parent's. -/
def eventsAt : FiberPath → List Event
  | [] => [Event.visit []]
  | a :: t => [Event.visit (a :: t), Event.create (a :: t), Event.attach t (a :: t)]

/-- Drive the traversal for at most `fuel` units of work starting from the
pending-work pointer `s`, collecting the event trace. -/
def run (T : Elem) : Nat → Option FiberPath → List Event
  | 0, _ => []
  | _ + 1, none => []
  | fuel + 1, some p => eventsAt p ++ run T fuel (nextPath T p)

mutual

/-- Total number of elements in a tree (the tree itself plus all
descendants). -/
def countElems : Elem → Nat
  | .mk _ _ cs => 1 + countList cs

/-- Total number of elements in a forest. -/
def countList : List Elem → Nat
  | [] => 0
  | c :: rest => countElems c + countList rest

end

mutual

/-- Depth-first pre-order enumeration of the fiber paths of the subtree
rooted at element `e`, whose fiber has path `p`: the node itself, then each
child subtree in order.  This is exactly the visitation order of
`performUnitOfWork`. -/
def preorderAux (e : Elem) (p : FiberPath) : List FiberPath :=
  match e with
  | .mk _ _ cs => p :: preorderChildren cs 0 p

/-- Pre-order enumeration of the child subtrees `cs` of the fiber at `p`,
starting at child index `i`. -/
def preorderChildren (cs : List Elem) (i : Nat) (p : FiberPath) : List FiberPath :=
  match cs with
  | [] => []
  | c :: rest => preorderAux c (i :: p) ++ preorderChildren rest (i + 1) p

end

/-- All fiber paths of the traversal seeded by `render(e, container)`, in
visitation order: the synthetic root first, then the element tree. -/
def preorderRooted (e : Elem) : List FiberPath := preorderAux (rootFiber e) []

/-- Concatenation of the per-fiber event blocks over a list of paths. -/
def flatEvents : List FiberPath → List Event
  | [] => []
  | p :: rest => eventsAt p ++ flatEvents rest

/-- The complete trace of a full traversal of `rootFiber e` driven by
repeated `performUnitOfWork` calls with no time limit. -/
def fullRun (e : Elem) : List Event :=
  run (rootFiber e) (countElems (rootFiber e)) (some [])

def visitOf : Event → Option FiberPath
  | .visit p => some p
  | _ => none

def attachOf : Event → Option (FiberPath × FiberPath)
  | .attach q c => some (q, c)
  | _ => none

def createOf : Event → Option FiberPath
  | .create p => some p
  | _ => none

/-- The `performUnitOfWork` invocations of a full traversal, in order. -/
def visitLog (e : Elem) : List FiberPath := (fullRun e).filterMap visitOf

/-- The `appendChild` side effects of a full traversal, in order:
`(parent fiber path, child fiber path)` pairs. -/
def attachLog (e : Elem) : List (FiberPath × FiberPath) := (fullRun e).filterMap attachOf

/-- The `createDom` invocations of a full traversal, in order. -/
def createLog (e : Elem) : List FiberPath := (fullRun e).filterMap createOf

/-! ## The slice-scheduler driver (`workLoop` and `render`) -/

/-- `fuel`-fold advancement of the pending-work pointer: the pointer left
behind after that many `performUnitOfWork` calls. -/
def iterNext (T : Elem) : Nat → Option FiberPath → Option FiberPath
  | 0, s => s
  | n + 1, s => iterNext T n (s.bind (nextPath T))

/-- The body of `workLoop(deadline)` from `src/react16/react/render-dom.js`:
`while (nextUnitOfWork && !shouldYield) { nextUnitOfWork =
performUnitOfWork(nextUnitOfWork); shouldYield = deadline.timeRemaining() <
1 }`.  `deadline j` is the value of the j-th `timeRemaining()` call (one
call per unit performed, so the counter also counts units).  Returns the
final pending-work pointer and the number of units performed.  `fuel`
bounds the iteration; any `fuel` at least the number of remaining work
nodes is exact. -/
def workLoopGo (T : Elem) (deadline : Nat → Nat) : Nat → Option FiberPath → Nat → Option FiberPath × Nat
  | _, none, calls => (none, calls)
  | 0, some p, calls => (some p, calls)
  | fuel + 1, some p, calls =>
      let nxt := nextPath T p
      if deadline calls < 1 then (nxt, calls + 1)
      else workLoopGo T deadline fuel nxt (calls + 1)

/-- Module-level scheduler state of `render-dom.js`: the element tree whose
fibers the pending-work pointer addresses, the pointer itself
(`let nextUnitOfWork = null`), and whether an idle callback is currently
registered with the host (`requestIdleCallback`). -/
structure HostState where
  tree : Elem
  nextUnitOfWork : Option FiberPath
  idlePending : Bool

/-- State after the module loads: `nextUnitOfWork = null` and exactly one
idle callback pending from the single top-level
`requestIdleCallback(workLoop)` call. -/
def moduleInit : HostState :=
  { tree := Elem.mk none [] [], nextUnitOfWork := none, idlePending := true }

/-- `render(element, container)` from `src/react16/react/render-dom.js`:
set `nextUnitOfWork` to the seeded root work node (`dom: container`,
`props: { children: [element] }`).  The source performs no other action —
in particular it does not call `requestIdleCallback`. -/
def render (element : Elem) (s : HostState) : HostState :=
  { s with tree := rootFiber element, nextUnitOfWork := some [] }

/-- The host firing the pending idle callback: `workLoop(deadline)` runs to
completion of its `while` loop, updating `nextUnitOfWork`.  The source body
of `workLoop` contains no `requestIdleCallback` call, so after it returns
no idle callback is pending. -/
def fireIdle (deadline : Nat → Nat) (s : HostState) : HostState :=
  if s.idlePending then
    { s with
      nextUnitOfWork := (workLoopGo s.tree deadline (countElems s.tree) s.nextUnitOfWork 0).1,
      idlePending := false }
  else s

/-- `performUnitOfWork` applied to the raw pending-work pointer.  Passing
the `null` left behind by a completed traversal makes the source body
dereference `fiber.dom` on `null`, which throws a `TypeError`; this is the
`Except.error` branch. -/
def performUnitOfWorkOpt (T : Elem) : Option FiberPath → Except String (Option FiberPath)
  | none => Except.error "TypeError: cannot read property of null"
  | some p => Except.ok (nextPath T p)

/-! ## The expiring task queue (`scheduleTask` / `performTask`) -/

/-- A schedulable callback from `src/task-splitting-example.js`: an
identifier for the execution log, the expiration timestamp passed to
`scheduleTask` alongside it, and the tasks the callback itself submits via
`scheduleTask` when it runs (modelling re-entrant scheduling; the sample
tasks `myTask1`..`myTask3` submit nothing). -/
inductive JTask where
  | mk (id : Nat) (timeout : Nat) (spawns : List JTask)

def JTask.id : JTask → Nat
  | .mk i _ _ => i

def JTask.timeout : JTask → Nat
  | .mk _ t _ => t

def JTask.spawns : JTask → List JTask
  | .mk _ _ sp => sp

/-- Module state of the task scheduler: the queue `takes`, the
`isPerformingTash` flag, the number of driver invocations currently
pending with the host (a `port.postMessage` or `requestAnimationFrame`
registration not yet delivered), the abstract `performance.now()` clock,
and the log of executed task ids. -/
structure SchedulerState where
  takes : List JTask
  isPerformingTash : Bool
  posted : Nat
  clock : Nat
  executed : List Nat

def initSched : SchedulerState :=
  { takes := [], isPerformingTash := false, posted := 0, clock := 0, executed := [] }

/-- `scheduleTask(task, timeout)`: push the task onto `takes`; if no driver
pass is active or pending (`!isPerformingTash`), set the flag and post one
driver message via the message channel. -/
def scheduleTask (t : JTask) (s : SchedulerState) : SchedulerState :=
  let s1 := { s with takes := s.takes ++ [t] }
  if !s1.isPerformingTash then
    { s1 with isPerformingTash := true, posted := s1.posted + 1 }
  else s1

/-- Running a task's callback: it executes (logged by id by the caller) and
re-entrantly calls `scheduleTask` for each of its spawned tasks. -/
def runSpawns (sp : List JTask) (s : SchedulerState) : SchedulerState :=
  sp.foldl (fun acc t => scheduleTask t acc) s

/-- The `while` loop of `performTask`: while the queue is non-empty and the
frame's time budget is not exhausted, shift the front task; if the current
time has reached its expiration (`performance.now() >= timeout`) execute
and permanently remove it, otherwise push it back to the end of the queue.
Time is modelled as a counter advancing one unit per iteration, so the
frame budget (elapsed < frameTime) is the `fuel` argument. -/
def performTaskLoop : Nat → SchedulerState → SchedulerState
  | 0, s => s
  | fuel + 1, s =>
    match s.takes with
    | [] => s
    | t :: rest =>
      let s1 := { s with takes := rest, clock := s.clock + 1 }
      if s1.clock ≥ t.timeout then
        performTaskLoop fuel (runSpawns t.spawns { s1 with executed := s1.executed ++ [t.id] })
      else
        performTaskLoop fuel { s1 with takes := s1.takes ++ [t] }

/-- One full `performTask` driver pass (after the host delivered a pending
invocation): run the loop for the frame budget; if tasks remain, request
another slice (`requestAnimationFrame(performTask)`), otherwise clear
`isPerformingTash`. -/
def performTask (frameTime : Nat) (s : SchedulerState) : SchedulerState :=
  let s1 := performTaskLoop frameTime s
  if s1.takes.length > 0 then { s1 with posted := s1.posted + 1 }
  else { s1 with isPerformingTash := false }

/-- External interactions with the task scheduler: a client submitting a
task, or the host delivering one pending driver invocation. -/
inductive SchedAction where
  | schedule (t : JTask)
  | driver

def stepAction (frameTime : Nat) (s : SchedulerState) : SchedAction → SchedulerState
  | .schedule t => scheduleTask t s
  | .driver =>
      if s.posted > 0 then performTask frameTime { s with posted := s.posted - 1 }
      else s

def schedRun (frameTime : Nat) (acts : List SchedAction) : SchedulerState :=
  acts.foldl (stepAction frameTime) initSched

/-! ## The naive recursive render (`src/unnamed/part_000`) and the
reification of the fiber machine's output tree -/

mutual

/-- `render(element, container)` from `src/unnamed/part_000`: construct
the output node (text node for `'TEXT_ELEMENT'`, otherwise
`document.createElement(element.type)`), copy every non-`children` prop,
recurse into every child in order (each recursive call appends its node to
`dom`), and finally append `dom` to the container.  The value returned
here is the single node this call appends to its container. -/
def render_naive : Elem → DomNode
  | .mk t props cs =>
      if t = some "TEXT_ELEMENT" then
        DomNode.text (props.filter fun kv => isProperty kv.1) (renderChildren cs)
      else
        DomNode.elem (strOfType t) (props.filter fun kv => isProperty kv.1) (renderChildren cs)

/-- The nodes appended into `dom` by the recursive calls
`element.props.children.forEach(child => render(child, dom))`, in order. -/
def renderChildren : List Elem → List DomNode
  | [] => []
  | c :: rest => render_naive c :: renderChildren rest

end

/-- The children the fiber machine attached to the output node of the
fiber at `p`, in attach order (JavaScript `appendChild` appends to the end
of the parent's child list). -/
def kids (e : Elem) (p : FiberPath) : List FiberPath :=
  (attachLog e).filterMap fun pr => if pr.1 = p then some pr.2 else none

/-- The output node constructed for the fiber at `p` (before any children
were attached).  Unreachable-path fallback is an empty element node. -/
def nodeAt (e : Elem) (p : FiberPath) : DomNode :=
  match elemAt (rootFiber e) p with
  | some el => createDom el
  | none => DomNode.elem "undefined" [] []

/-- Replace a node's child list. -/
def withKids : DomNode → List DomNode → DomNode
  | .text a _, ks => .text a ks
  | .elem t a _, ks => .elem t a ks

/-- The output tree below the fiber at `p` after a full traversal, read
off the machine's attach log; `d` bounds the depth (any `d` at least the
tree height is exact). -/
def reify (e : Elem) : Nat → FiberPath → DomNode
  | 0, p => nodeAt e p
  | d + 1, p => withKids (nodeAt e p) ((kids e p).map (reify e d))

/-- The child nodes the engine left inside the host container after a full
traversal. -/
def containerChildren (e : Elem) : List DomNode :=
  (kids e []).map (reify e (countElems e))

/-! ## Basic facts about sizes, paths and the traversal -/

theorem countElems_pos (e : Elem) : 0 < countElems e := by
  match e with
  | .mk t pr cs => simp [countElems]

theorem countElems_le_of_mem : ∀ {cs : List Elem} {c : Elem}, c ∈ cs → countElems c ≤ countList cs := by
  intro cs
  induction cs with
  | nil => intro c h; cases h
  | cons a rest ih =>
      intro c h
      rcases List.mem_cons.mp h with h | h
      · subst h; simp [countList]
      · have := ih h
        simp [countList]; omega

theorem flatEvents_append (l₁ l₂ : List FiberPath) :
    flatEvents (l₁ ++ l₂) = flatEvents l₁ ++ flatEvents l₂ := by
  induction l₁ with
  | nil => simp [flatEvents]
  | cons p rest ih => simp [flatEvents, ih]

theorem childCount_eq {T e : Elem} {p : FiberPath} (h : elemAt T p = some e) :
    childCount T p = e.children.length := by
  simp [childCount, h]

theorem elemAt_child {T e c : Elem} {p : FiberPath} {i : Nat}
    (h : elemAt T p = some e) (hc : e.children[i]? = some c) :
    elemAt T (i :: p) = some c := by
  simp [elemAt, h, hc]

/-- The run of the subtree rooted at the fiber at `p` (element `e`):
it emits exactly the event blocks of the subtree's pre-order enumeration
and leaves the pending pointer at `completeUnit T p`, consuming exactly
`countElems e` fuel. -/
theorem run_spine (T : Elem) : ∀ (n : Nat) (e : Elem) (p : FiberPath) (k : Nat),
    countElems e ≤ n → elemAt T p = some e →
    run T (countElems e + k) (some p) =
      flatEvents (preorderAux e p) ++ run T k (completeUnit T p) := by
  intro n
  induction n with
  | zero => intro e p k hle _; exact absurd hle (by have := countElems_pos e; omega)
  | succ n ih =>
    intro e p k hle hat
    match e with
    | .mk t pr cs =>
      have hcount : countElems (Elem.mk t pr cs) = 1 + countList cs := by simp [countElems]
      have hrun1 : countElems (Elem.mk t pr cs) + k = (countList cs + k) + 1 := by omega
      rw [hrun1]
      have hstep : run T ((countList cs + k) + 1) (some p) =
          eventsAt p ++ run T (countList cs + k) (nextPath T p) := by
        simp [run]
      rw [hstep]
      match hcs : cs with
      | [] =>
        have hcc : childCount T p = 0 := by
          rw [childCount_eq hat]; simp [Elem.children]
        have hnp : nextPath T p = completeUnit T p := by
          simp [nextPath, hcc]
        rw [hnp]
        simp [preorderAux, preorderChildren, flatEvents, countList]
      | c :: cr =>
        have hcc : childCount T p = cr.length + 1 := by
          rw [childCount_eq hat]; simp [Elem.children]
        have hnp : nextPath T p = some (0 :: p) := by
          simp [nextPath, hcc]
        rw [hnp]
        simp only [preorderAux, flatEvents, List.append_assoc]
        congr 1
        -- chain over the children, starting at index 0
        have hcsle : countList (c :: cr) ≤ n := by
          rw [hcount] at hle; omega
        have chain : ∀ (cs' : List Elem) (i k' : Nat),
            (c :: cr).drop i = cs' → cs' ≠ [] →
            run T (countList cs' + k') (some (i :: p)) =
              flatEvents (preorderChildren cs' i p) ++ run T k' (completeUnit T p) := by
          intro cs'
          induction cs' with
          | nil => intro i k' _ hne; exact absurd rfl hne
          | cons c' rest ihc =>
            intro i k' hdrop _
            have hget : (c :: cr)[i]? = some c' := by
              have h0 : ((c :: cr).drop i)[0]? = some c' := by rw [hdrop]; simp
              rw [List.getElem?_drop] at h0
              simpa using h0
            have hmem : c' ∈ (c :: cr) := by
              have : c' ∈ (c :: cr).drop i := by rw [hdrop]; exact List.mem_cons_self _ _
              exact List.drop_subset _ _ this
            have hc'le : countElems c' ≤ n := le_trans (countElems_le_of_mem hmem) hcsle
            have hat' : elemAt T (i :: p) = some c' :=
              elemAt_child hat (by simpa [Elem.children] using hget)
            have hdrop1 : (c :: cr).drop (i + 1) = rest := by
              have h1 : List.drop 1 ((c :: cr).drop i) = List.drop 1 (c' :: rest) := by rw [hdrop]
              rw [List.drop_drop] at h1
              simpa using h1
            have hlend : cr.length + 1 - (i + 1) = rest.length := by
              have h2 := congrArg List.length hdrop1
              rw [List.length_drop] at h2
              simpa using h2
            have hclcons : countList (c' :: rest) + k' = countElems c' + (countList rest + k') := by
              simp [countList]; omega
            rw [hclcons]
            rw [ih c' (i :: p) (countList rest + k') hc'le hat']
            have hcomp : completeUnit T (i :: p) =
                if i + 1 < childCount T p then some ((i + 1) :: p) else completeUnit T p := by
              simp [completeUnit]
            match hrest : rest with
            | [] =>
              have hnotlt : ¬ (i + 1 < childCount T p) := by
                rw [hcc]
                simp at hlend
                omega
              have hcu : completeUnit T (i :: p) = completeUnit T p := by
                rw [hcomp, if_neg hnotlt]
              rw [hcu]
              simp [preorderChildren, countList, flatEvents_append, flatEvents]
            | r :: rs =>
              have hlt : i + 1 < childCount T p := by
                rw [hcc]
                simp at hlend
                omega
              have hcu : completeUnit T (i :: p) = some ((i + 1) :: p) := by
                rw [hcomp, if_pos hlt]
              rw [hcu]
              rw [ihc (i + 1) k' hdrop1 (by simp)]
              simp [preorderChildren, flatEvents_append]
        exact chain (c :: cr) 0 k rfl (by simp)

/-- A full traversal driven with no time limit emits exactly the event
blocks of the rooted pre-order enumeration. -/
theorem fullRun_eq (e : Elem) : fullRun e = flatEvents (preorderRooted e) := by
  unfold fullRun preorderRooted
  have h := run_spine (rootFiber e) (countElems (rootFiber e)) (rootFiber e) [] 0 le_rfl rfl
  simpa [completeUnit, run] using h

mutual

theorem preorderAux_length (e : Elem) (p : FiberPath) :
    (preorderAux e p).length = countElems e := by
  match e with
  | .mk t pr cs =>
      simp only [preorderAux, List.length_cons, countElems, preorderChildren_length cs 0 p]
      omega

theorem preorderChildren_length (cs : List Elem) (i : Nat) (p : FiberPath) :
    (preorderChildren cs i p).length = countList cs := by
  match cs with
  | [] => simp [preorderChildren, countList]
  | c :: rest =>
      simp [preorderChildren, countList, preorderAux_length c (i :: p),
        preorderChildren_length rest (i + 1) p]

end

mutual

theorem preorderAux_suffix (e : Elem) (p : FiberPath) :
    ∀ q ∈ preorderAux e p, p <:+ q := by
  match e with
  | .mk t pr cs =>
      intro q hq
      rw [preorderAux] at hq
      rcases List.mem_cons.mp hq with h | h
      · subst h; exact List.suffix_refl q
      · rcases preorderChildren_suffix cs 0 p q h with ⟨j, _, hsuf⟩
        exact (List.suffix_cons j p).trans hsuf

theorem preorderChildren_suffix (cs : List Elem) (i : Nat) (p : FiberPath) :
    ∀ q ∈ preorderChildren cs i p, ∃ j, i ≤ j ∧ (j :: p) <:+ q := by
  match cs with
  | [] => intro q hq; rw [preorderChildren] at hq; cases hq
  | c :: rest =>
      intro q hq
      rw [preorderChildren] at hq
      rcases List.mem_append.mp hq with h | h
      · exact ⟨i, le_rfl, preorderAux_suffix c (i :: p) q h⟩
      · rcases preorderChildren_suffix rest (i + 1) p q h with ⟨j, hj, hsuf⟩
        exact ⟨j, by omega, hsuf⟩

end

theorem suffix_eq_drop {A B : List Nat} (h : A <:+ B) :
    A = B.drop (B.length - A.length) := by
  rcases h with ⟨u, hu⟩
  subst hu
  have hlen : (u ++ A).length - A.length = u.length := by
    simp [List.length_append]
  rw [hlen, List.drop_left]

theorem suffix_eq_of_length {A C B : List Nat} (hA : A <:+ B) (hC : C <:+ B)
    (hlen : A.length = C.length) : A = C := by
  rw [suffix_eq_drop hA, suffix_eq_drop hC, hlen]

theorem suffix_of_suffix_length_le {A C B : List Nat} (hA : A <:+ B) (hC : C <:+ B)
    (hlen : C.length ≤ A.length) : C <:+ A := by
  have hAB : A.length ≤ B.length := hA.length_le
  have e1 : A = B.drop (B.length - A.length) := suffix_eq_drop hA
  have e2 : C = B.drop (B.length - C.length) := suffix_eq_drop hC
  have e3 : B.drop (B.length - C.length) =
      (B.drop (B.length - A.length)).drop (A.length - C.length) := by
    rw [List.drop_drop]
    congr 1
    omega
  rw [e2, e3, ← e1]
  exact List.drop_suffix _ _

mutual

theorem preorderAux_nodup (e : Elem) (p : FiberPath) :
    (preorderAux e p).Nodup := by
  match e with
  | .mk t pr cs =>
      rw [preorderAux]
      refine List.nodup_cons.mpr ⟨?_, preorderChildren_nodup cs 0 p⟩
      intro hmem
      rcases preorderChildren_suffix cs 0 p p hmem with ⟨j, _, hsuf⟩
      have := hsuf.length_le
      simp at this

theorem preorderChildren_nodup (cs : List Elem) (i : Nat) (p : FiberPath) :
    (preorderChildren cs i p).Nodup := by
  match cs with
  | [] => rw [preorderChildren]; exact List.nodup_nil
  | c :: rest =>
      rw [preorderChildren]
      refine List.Nodup.append (preorderAux_nodup c (i :: p))
        (preorderChildren_nodup rest (i + 1) p) ?_
      intro q hq hq'
      have hsuf1 : (i :: p) <:+ q := preorderAux_suffix c (i :: p) q hq
      rcases preorderChildren_suffix rest (i + 1) p q hq' with ⟨j, hj, hsuf2⟩
      have : (i : Nat) :: p = j :: p := suffix_eq_of_length hsuf1 hsuf2 (by simp)
      have : i = j := by simpa using this
      omega

end

/-! ## Characterizing the visit / attach / create logs -/

theorem mem_flatEvents {x : Event} : ∀ {l : List FiberPath},
    x ∈ flatEvents l ↔ ∃ p ∈ l, x ∈ eventsAt p := by
  intro l
  induction l with
  | nil => simp [flatEvents]
  | cons p rest ih => simp [flatEvents, ih]

theorem flatEvents_filterMap_visit (l : List FiberPath) :
    (flatEvents l).filterMap visitOf = l := by
  induction l with
  | nil => simp [flatEvents]
  | cons p rest ih =>
      match p with
      | [] => simp [flatEvents, eventsAt, visitOf, List.filterMap_append, ih]
      | a :: t => simp [flatEvents, eventsAt, visitOf, List.filterMap_append, ih]

/-- The per-path attach record: the root fiber attaches nothing, the fiber
at `a :: t` attaches its output node to the fiber at `t`. -/
def pathAttach : FiberPath → Option (FiberPath × FiberPath)
  | [] => none
  | a :: t => some (t, a :: t)

theorem flatEvents_filterMap_attach (l : List FiberPath) :
    (flatEvents l).filterMap attachOf = l.filterMap pathAttach := by
  induction l with
  | nil => simp [flatEvents]
  | cons p rest ih =>
      match p with
      | [] => simp [flatEvents, eventsAt, attachOf, pathAttach, List.filterMap_append, ih]
      | a :: t => simp [flatEvents, eventsAt, attachOf, pathAttach, List.filterMap_append, ih]

theorem preorderRooted_eq (e : Elem) :
    preorderRooted e = [] :: preorderAux e [0] := by
  simp [preorderRooted, rootFiber, preorderAux, preorderChildren]

theorem filterMap_pathAttach_of_ne_nil : ∀ {l : List FiberPath}, (∀ q ∈ l, q ≠ []) →
    l.filterMap pathAttach = l.map (fun q => (q.tail, q)) := by
  intro l
  induction l with
  | nil => intro _; simp
  | cons q rest ih =>
      intro h
      match q with
      | [] => exact absurd rfl (h [] (List.mem_cons_self _ _))
      | a :: t =>
          simp only [List.filterMap_cons, pathAttach, List.map_cons]
          rw [ih fun q hq => h q (List.mem_cons_of_mem _ hq)]
          simp

theorem mem_preorder_elem_ne_nil (e : Elem) :
    ∀ q ∈ preorderAux e [0], q ≠ [] := by
  intro q hq
  have := (preorderAux_suffix e [0] q hq).length_le
  intro hnil
  subst hnil
  simp at this

theorem visitLog_eq (e : Elem) : visitLog e = preorderRooted e := by
  rw [visitLog, fullRun_eq, flatEvents_filterMap_visit]

theorem attachLog_eq (e : Elem) :
    attachLog e = (preorderAux e [0]).map (fun q => (q.tail, q)) := by
  rw [attachLog, fullRun_eq, flatEvents_filterMap_attach, preorderRooted_eq]
  simp only [List.filterMap_cons, pathAttach]
  exact filterMap_pathAttach_of_ne_nil (mem_preorder_elem_ne_nil e)

/-- The sample element tree from the spec's scenario:
`div[p[text "a"], text "b"]`. -/
def sampleTree : Elem :=
  Elem.mk (some "div") [("id", "root")]
    [Elem.mk (some "p") [] [Elem.mk (some "TEXT_ELEMENT") [("nodeValue", "a")] []],
     Elem.mk (some "TEXT_ELEMENT") [("nodeValue", "b")] []]

/-- C1: For every element tree with N elements, the full traversal driven
by repeatedly calling `performUnitOfWork` from the root work node seeded by
`render`, with no time limit, visits exactly N+1 work nodes (the N elements
plus the synthetic root), each exactly once, and attaches exactly N output
nodes, each exactly once (the attached fiber paths are pairwise distinct),
each to the output node of its parent fiber (`pr.1` is the parent path of
the attached path `pr.2`). -/
theorem c1_full_traversal_counts (e : Elem) :
    (visitLog e).length = countElems e + 1 ∧
    (visitLog e).Nodup ∧
    (attachLog e).length = countElems e ∧
    ((attachLog e).map Prod.snd).Nodup ∧
    ∀ pr ∈ attachLog e, ∃ a t, pr.2 = a :: t ∧ pr.1 = t := by
  refine ⟨?_, ?_, ?_, ?_, ?_⟩
  · rw [visitLog_eq, preorderRooted_eq]
    simp [preorderAux_length]
  · rw [visitLog_eq]
    show (preorderAux (rootFiber e) []).Nodup
    exact preorderAux_nodup (rootFiber e) []
  · rw [attachLog_eq]
    simp [preorderAux_length]
  · rw [attachLog_eq]
    have hmm : (List.map (fun q : FiberPath => (q.tail, q)) (preorderAux e [0])).map Prod.snd
        = preorderAux e [0] := by
      have hcomp : (Prod.snd ∘ fun q : FiberPath => (q.tail, q)) = id := rfl
      rw [List.map_map, hcomp, List.map_id]
    rw [hmm]
    exact preorderAux_nodup e [0]
  · rw [attachLog_eq]
    intro pr hpr
    rcases List.mem_map.mp hpr with ⟨q, hq, hqe⟩
    have hne := mem_preorder_elem_ne_nil e q hq
    match q, hne with
    | a :: t, _ =>
        refine ⟨a, t, ?_, ?_⟩
        · rw [← hqe]
        · rw [← hqe]
          rfl

/-- Witness for C1 at the sample tree: the first attach record of the
traversal is the root element's node attached to the container. -/
theorem c1_full_traversal_counts_witness :
    (([], [0]) : FiberPath × FiberPath) ∈ attachLog sampleTree ∧
    ∃ a t, (([], [0]) : FiberPath × FiberPath).2 = a :: t ∧
      (([], [0]) : FiberPath × FiberPath).1 = t :=
  ⟨by decide, (c1_full_traversal_counts sampleTree).2.2.2.2 ([], [0]) (by decide)⟩

/-- C10: Over a complete traversal the synthetic root work node's output
handle is the host container itself (`render` pre-sets `dom: container`,
so `createDom` is never invoked for the root), the root is never attached
to any parent, and exactly one output node — the root element's, fiber
path `[0]` — is attached directly to the container (fiber path `[]`), the
container being otherwise unmodified. -/
theorem c10_root_and_container (e : Elem) :
    Event.create [] ∉ fullRun e ∧
    (∀ q : FiberPath, Event.attach q [] ∉ fullRun e) ∧
    (attachLog e).filter (fun pr => pr.1 = []) = [([], [0])] := by
  refine ⟨?_, ?_, ?_⟩
  · rw [fullRun_eq]
    intro hmem
    rcases mem_flatEvents.mp hmem with ⟨p, _, hev⟩
    match p with
    | [] => simp [eventsAt] at hev
    | a :: t => simp [eventsAt] at hev
  · intro q
    rw [fullRun_eq]
    intro hmem
    rcases mem_flatEvents.mp hmem with ⟨p, _, hev⟩
    match p with
    | [] => simp [eventsAt] at hev
    | a :: t =>
        simp [eventsAt] at hev
  · rw [attachLog_eq]
    match e with
    | .mk t pr cs =>
        rw [preorderAux]
        simp only [List.map_cons, List.tail_cons]
        rw [List.filter_cons]
        have hrest : ((preorderChildren cs 0 [0]).map
            (fun q : FiberPath => (q.tail, q))).filter (fun pr => pr.1 = []) = [] := by
          rw [List.filter_eq_nil_iff]
          intro x hx
          rcases List.mem_map.mp hx with ⟨q, hq, hqe⟩
          rcases preorderChildren_suffix cs 0 [0] q hq with ⟨j, _, hsuf⟩
          have hlen : 2 ≤ q.length := by
            have := hsuf.length_le
            simpa using this
          subst hqe
          simp only [decide_eq_true_eq]
          intro htail
          have : q.tail.length = 0 := by rw [htail]; rfl
          rw [List.length_tail] at this
          omega
        rw [hrest]
        simp

/-- Witness for C10: at the sample tree, `createDom` is never invoked for
the synthetic root. -/
theorem c10_root_and_container_witness : Event.create [] ∉ fullRun sampleTree :=
  (c10_root_and_container sampleTree).1

/-! ## Ordering of attaches and visits (depth-first pre-order) -/

theorem suffix_length_lt {A B : List Nat} (h : A <:+ B) (hne : A ≠ B) :
    A.length < B.length := by
  rcases Nat.lt_or_ge A.length B.length with hlt | hge
  · exact hlt
  · have heq : A.length = B.length := le_antisymm h.length_le hge
    exact absurd (suffix_eq_of_length h (List.suffix_refl B) heq) hne

theorem chain_mem_block : ∀ (cs : List Elem) (i : Nat) (p B : FiberPath),
    B ∈ preorderChildren cs i p →
    ∃ j c L R, preorderChildren cs i p = L ++ (preorderAux c (j :: p) ++ R) ∧
      B ∈ preorderAux c (j :: p) ∧ c ∈ cs := by
  intro cs
  induction cs with
  | nil => intro i p B hB; rw [preorderChildren] at hB; cases hB
  | cons c rest ih =>
      intro i p B hB
      rw [preorderChildren] at hB
      rcases List.mem_append.mp hB with h | h
      · exact ⟨i, c, [], preorderChildren rest (i + 1) p,
          by rw [preorderChildren]; simp, h, List.mem_cons_self _ _⟩
      · rcases ih (i + 1) p B h with ⟨j, c', L, R, heq, hB', hmem⟩
        refine ⟨j, c', preorderAux c (i :: p) ++ L, R, ?_, hB', List.mem_cons_of_mem _ hmem⟩
        rw [preorderChildren, heq]
        simp

/-- If the fiber at `a :: t` is an ancestor of (or equal to an ancestor
within the subtree of) the fiber at `B`, its attach event precedes `B`'s
visit event in the subtree's flat trace. -/
theorem anc_aux : ∀ (n : Nat) (e₀ : Elem) (p : FiberPath) (a : Nat) (t B : FiberPath),
    countElems e₀ ≤ n → B ∈ preorderAux e₀ p → (a :: t) <:+ B → (a :: t) ≠ B →
    p <:+ (a :: t) →
    List.Sublist [Event.attach t (a :: t), Event.visit B] (flatEvents (preorderAux e₀ p)) := by
  intro n
  induction n with
  | zero =>
      intro e₀ p a t B hle _ _ _ _
      exact absurd hle (by have := countElems_pos e₀; omega)
  | succ n ih =>
    intro e₀ p a t B hle hB hsufA hneA hp
    match e₀ with
    | .mk ty pr cs =>
      have hABlt : (a :: t).length < B.length := suffix_length_lt hsufA hneA
      rw [preorderAux] at hB ⊢
      rw [flatEvents]
      by_cases hAp : (a :: t) = p
      · -- the ancestor is the subtree root: its attach is in the head block
        have hBne : B ≠ p := by
          intro hc
          rw [← hAp] at hc
          subst hc
          omega
        have hBchain : B ∈ preorderChildren cs 0 p := by
          rcases List.mem_cons.mp hB with h | h
          · exact absurd h hBne
          · exact h
        have h1 : List.Sublist [Event.attach t (a :: t)] (eventsAt p) := by
          rw [← hAp]
          rw [eventsAt]
          exact List.singleton_sublist.mpr (by simp)
        have h2 : List.Sublist [Event.visit B] (flatEvents (preorderChildren cs 0 p)) := by
          refine List.singleton_sublist.mpr (mem_flatEvents.mpr ⟨B, hBchain, ?_⟩)
          match B with
          | [] => simp [eventsAt]
          | b :: bt => simp [eventsAt]
        exact h1.append h2
      · -- the ancestor is strictly inside the subtree: recurse into the
        -- child block containing B
        have hplt : p.length < (a :: t).length := suffix_length_lt hp (fun hc => hAp hc.symm)
        have hBne : B ≠ p := by
          intro hc
          subst hc
          omega
        have hBchain : B ∈ preorderChildren cs 0 p := by
          rcases List.mem_cons.mp hB with h | h
          · exact absurd h hBne
          · exact h
        rcases chain_mem_block cs 0 p B hBchain with ⟨j, c, L, R, heq, hBblk, hcmem⟩
        have hsufjB : (j :: p) <:+ B := preorderAux_suffix c (j :: p) B hBblk
        have hsufjA : (j :: p) <:+ (a :: t) := by
          refine suffix_of_suffix_length_le hsufA hsufjB ?_
          simp only [List.length_cons] at hplt ⊢
          omega
        have hcle : countElems c ≤ n := by
          have h1 : countElems c ≤ countList cs := countElems_le_of_mem hcmem
          have h2 : countElems (Elem.mk ty pr cs) = 1 + countList cs := by simp [countElems]
          omega
        have sub := ih c (j :: p) a t B hcle hBblk hsufA hneA hsufjA
        have lift1 : List.Sublist (flatEvents (preorderAux c (j :: p))) (flatEvents (preorderChildren cs 0 p)) := by
          rw [heq, flatEvents_append, flatEvents_append]
          exact (List.sublist_append_left _ _).trans (List.sublist_append_right _ _)
        exact (sub.trans lift1).trans (List.sublist_append_right _ _)

/-- C2: For every element tree and every pair of fibers where `a :: t` is
a strict ancestor of `B`, the attach of the ancestor's output node (which
happens during the ancestor's `performUnitOfWork` call) occurs strictly
before `B`'s `performUnitOfWork` call begins — stated as an ordered
sub-sequence of the full trace — and the units of work execute in
deterministic depth-first pre-order (the visit log is exactly the rooted
pre-order enumeration: parent before children, earlier child before later
sibling). -/
theorem c2_preorder_attach_before_visit (e : Elem) (a : Nat) (t B : FiberPath)
    (hB : B ∈ preorderRooted e) (hsuf : (a :: t) <:+ B) (hne : (a :: t) ≠ B) :
    List.Sublist [Event.attach t (a :: t), Event.visit B] (fullRun e) ∧
    visitLog e = preorderRooted e := by
  constructor
  · rw [fullRun_eq]
    have hB' : B ∈ preorderAux (rootFiber e) [] := hB
    exact anc_aux (countElems (rootFiber e)) (rootFiber e) [] a t B le_rfl hB' hsuf hne
      List.nil_suffix
  · exact visitLog_eq e

/-- Witness for C2 at the sample tree: the `div` element (`[0]`) is an
ancestor of the `p` element (`[0, 0]`); its attach precedes that visit. -/
theorem c2_preorder_attach_before_visit_witness :
    List.Sublist [Event.attach [] [0], Event.visit [0, 0]] (fullRun sampleTree) ∧
    visitLog sampleTree = preorderRooted sampleTree :=
  c2_preorder_attach_before_visit sampleTree 0 [] [0, 0] (by decide) ⟨[0], rfl⟩ (by decide)

/-! ## The driver loop: budget bounds, resumption, completion, scheduling -/

theorem workLoopGo_spec (T : Elem) (dl : Nat → Nat) (K : Nat)
    (h : ∀ j, K ≤ j + 1 → dl j < 1) :
    ∀ (fuel : Nat) (s : Option FiberPath) (c : Nat),
      c ≤ (workLoopGo T dl fuel s c).2 ∧
      (workLoopGo T dl fuel s c).2 ≤ max (c + 1) K ∧
      (workLoopGo T dl fuel s c).1 = iterNext T ((workLoopGo T dl fuel s c).2 - c) s := by
  intro fuel
  induction fuel with
  | zero =>
      intro s c
      match s with
      | none => simp [workLoopGo, iterNext]
      | some p =>
          have hred : workLoopGo T dl 0 (some p) c = (some p, c) := rfl
          rw [hred]
          exact ⟨le_rfl, le_trans (by omega) (Nat.le_max_left (c + 1) K), by simp [iterNext]⟩
  | succ fuel ihf =>
      intro s c
      match s with
      | none => simp [workLoopGo, iterNext]
      | some p =>
          rw [workLoopGo]
          by_cases hd : dl c < 1
          · simp only [hd, if_true]
            refine ⟨by omega, ?_, ?_⟩
            · simp
            · have h1 : c + 1 - c = 1 := by omega
              simp [h1, iterNext]
          · simp only [hd, if_false]
            have hKc : c + 2 ≤ K := by
              by_contra hcon
              exact hd (h c (by omega))
            obtain ⟨ih1, ih2, ih3⟩ := ihf (nextPath T p) (c + 1)
            have hmax : max (c + 1 + 1) K = K := Nat.max_eq_right (by omega)
            rw [hmax] at ih2
            have hm2 : K ≤ max (c + 1) K := Nat.le_max_right _ _
            refine ⟨by omega, by omega, ?_⟩
            have harith : (workLoopGo T dl fuel (nextPath T p) (c + 1)).2 - c =
                ((workLoopGo T dl fuel (nextPath T p) (c + 1)).2 - (c + 1)) + 1 := by
              omega
            rw [harith]
            have hbind : (some p).bind (nextPath T) = nextPath T p := rfl
            calc (workLoopGo T dl fuel (nextPath T p) (c + 1)).1
                = iterNext T ((workLoopGo T dl fuel (nextPath T p) (c + 1)).2 - (c + 1))
                    (nextPath T p) := ih3
              _ = iterNext T (((workLoopGo T dl fuel (nextPath T p) (c + 1)).2 - (c + 1)) + 1)
                    (some p) := by rw [iterNext, hbind]

/-- C4: For every traversal and every time-budget provider, if the
provider reports less than one millisecond remaining from its K-th call
onward (calls are 1-indexed: `dl j` is the (j+1)-th call), then a single
`workLoop` invocation performs at most K units of work before yielding,
and the pending-work pointer it leaves behind is exactly the pointer
obtained by advancing the start pointer through the performed units — the
next unit returned by the last performed unit — so across a yield boundary
no work node is skipped or visited twice. -/
theorem c4_slice_budget (T : Elem) (dl : Nat → Nat) (K fuel : Nat) (s₀ : Option FiberPath)
    (hK : 0 < K) (h : ∀ j, K ≤ j + 1 → dl j < 1) :
    (workLoopGo T dl fuel s₀ 0).2 ≤ K ∧
    (workLoopGo T dl fuel s₀ 0).1 = iterNext T (workLoopGo T dl fuel s₀ 0).2 s₀ := by
  obtain ⟨h1, h2, h3⟩ := workLoopGo_spec T dl K h fuel s₀ 0
  have hmax : max (0 + 1) K = K := Nat.max_eq_right (by omega)
  rw [hmax] at h2
  exact ⟨h2, by simpa using h3⟩

/-- Witness for C4: a provider that is exhausted from its first call on
lets the driver perform exactly one unit and leave the pointer at the next
unit of the seeded root. -/
theorem c4_slice_budget_witness :
    (workLoopGo (rootFiber sampleTree) (fun _ => 0) 5 (some []) 0).2 ≤ 1 ∧
    (workLoopGo (rootFiber sampleTree) (fun _ => 0) 5 (some []) 0).1 =
      iterNext (rootFiber sampleTree) (workLoopGo (rootFiber sampleTree) (fun _ => 0) 5 (some []) 0).2 (some []) :=
  c4_slice_budget (rootFiber sampleTree) (fun _ => 0) 1 5 (some []) (by decide)
    (fun j hj => by show (0 : Nat) < 1; decide)

/-- C8: Once the traversal is complete (`performUnitOfWork` returned null
and the pending pointer is null), the engine never resumes stale state:
calling `performUnitOfWork` on the null pointer is an explicit error (the
source dereferences `fiber.dom` on `null`, throwing a `TypeError`) and
never returns a further fiber, and the `workLoop` driver's guard
(`while (nextUnitOfWork && ...)`) makes any further driver invocation a
no-op that performs zero units and leaves the pointer null. -/
theorem c8_completion_idempotent (T : Elem) (dl : Nat → Nat) :
    performUnitOfWorkOpt T none =
      Except.error "TypeError: cannot read property of null" ∧
    ∀ (fuel c : Nat), workLoopGo T dl fuel none c = (none, c) := by
  refine ⟨rfl, ?_⟩
  intro fuel c
  cases fuel <;> rfl

/-- C3 (code-bug evidence): after `render` seeds the root and the single
module-level idle callback fires with an exhausted budget, work remains
(`nextUnitOfWork = some [0]`) yet no idle callback is pending — the source
`workLoop` contains no `requestIdleCallback` re-request — and a further
`render` call still schedules no driver.  This contradicts the claim that
the driver re-requests an idle slice and that `render` ensures a driver is
scheduled. -/
theorem c3_driver_not_rescheduled :
    (fireIdle (fun _ => 0) (render sampleTree moduleInit)).nextUnitOfWork = some [0] ∧
    (fireIdle (fun _ => 0) (render sampleTree moduleInit)).idlePending = false ∧
    (render sampleTree (fireIdle (fun _ => 0) (render sampleTree moduleInit))).idlePending
      = false := by
  refine ⟨?_, rfl, rfl⟩
  decide

/-! ## Malformed element descriptors (missing kind) -/

/-- C7 (counterexample): an element whose kind is missing does NOT make the
engine fail fast with a configuration-error signal when it becomes the
current unit of work.  `createDom` takes the non-text branch
(`undefined === 'TEXT_ELEMENT'` is false) and
`document.createElement(undefined)` constructs an element node whose tag is
the string coercion `"undefined"`; the traversal then creates and attaches
that corrupt node like any other. -/
theorem c7_counterexample :
    createDom (Elem.mk none [("id", "x")] []) = DomNode.elem "undefined" [("id", "x")] [] ∧
    Event.create [0] ∈ fullRun (Elem.mk none [] []) ∧
    Event.attach [] [0] ∈ fullRun (Elem.mk none [] []) :=
  ⟨rfl, by decide, by decide⟩

/-- C7 (amended): for every element descriptor whose kind is missing, the
traversal engine does not fail fast: `createDom` falls into the
`document.createElement` branch and constructs an element output node whose
tag is the JavaScript string coercion `"undefined"` of the missing kind,
carrying the element's non-`children` props; no configuration-error signal
exists in the engine. -/
theorem c7_missing_kind_constructs_node (props : List (String × String)) (cs : List Elem) :
    createDom (Elem.mk none props cs) =
      DomNode.elem "undefined" (props.filter fun kv => isProperty kv.1) [] := rfl

/-! ## Task-queue invariants and FIFO-with-deferral -/

/-- The scheduler-state invariant: the number of pending driver
invocations is 1 exactly when `isPerformingTash` is set, and the flag is
only ever clear when the queue is empty. -/
def SchedInv (s : SchedulerState) : Prop :=
  s.posted = (if s.isPerformingTash then 1 else 0) ∧
  (s.isPerformingTash = false → s.takes = [])

theorem scheduleTask_flag (t : JTask) (s : SchedulerState) :
    (scheduleTask t s).isPerformingTash = true := by
  rw [scheduleTask]
  by_cases h : s.isPerformingTash <;> simp [h]

theorem scheduleTask_posted (t : JTask) (s : SchedulerState) :
    (scheduleTask t s).posted = s.posted + (if s.isPerformingTash then 0 else 1) := by
  rw [scheduleTask]
  by_cases h : s.isPerformingTash <;> simp [h]

theorem scheduleTask_keeps (t : JTask) (s : SchedulerState)
    (h : s.isPerformingTash = true) :
    (scheduleTask t s).isPerformingTash = true ∧ (scheduleTask t s).posted = s.posted := by
  rw [scheduleTask]
  simp [h]

theorem runSpawns_keeps (sp : List JTask) : ∀ (s : SchedulerState),
    s.isPerformingTash = true →
    (runSpawns sp s).isPerformingTash = true ∧ (runSpawns sp s).posted = s.posted := by
  induction sp with
  | nil => intro s h; simp [runSpawns, h]
  | cons t rest ih =>
      intro s h
      have hk := scheduleTask_keeps t s h
      have := ih (scheduleTask t s) hk.1
      simp only [runSpawns, List.foldl_cons] at *
      exact ⟨this.1, this.2.trans hk.2⟩

theorem performTaskLoop_nil (fuel : Nat) (s : SchedulerState) (h : s.takes = []) :
    performTaskLoop (fuel + 1) s = s := by
  rw [performTaskLoop, h]

theorem performTaskLoop_cons (fuel : Nat) (s : SchedulerState) (t : JTask) (rest : List JTask)
    (h : s.takes = t :: rest) :
    performTaskLoop (fuel + 1) s =
      if s.clock + 1 ≥ t.timeout then
        performTaskLoop fuel (runSpawns t.spawns
          { s with takes := rest, clock := s.clock + 1, executed := s.executed ++ [t.id] })
      else
        performTaskLoop fuel { s with takes := rest ++ [t], clock := s.clock + 1 } := by
  rw [performTaskLoop, h]

theorem performTaskLoop_keeps : ∀ (fuel : Nat) (s : SchedulerState),
    s.isPerformingTash = true →
    (performTaskLoop fuel s).isPerformingTash = true ∧
    (performTaskLoop fuel s).posted = s.posted := by
  intro fuel
  induction fuel with
  | zero => intro s h; exact ⟨h, rfl⟩
  | succ fuel ih =>
      intro s h
      match htakes : s.takes with
      | [] => rw [performTaskLoop_nil fuel s htakes]; exact ⟨h, rfl⟩
      | t :: rest =>
          rw [performTaskLoop_cons fuel s t rest htakes]
          by_cases hexp : s.clock + 1 ≥ t.timeout
          · rw [if_pos hexp]
            have hsp := runSpawns_keeps t.spawns
              { s with takes := rest, clock := s.clock + 1, executed := s.executed ++ [t.id] } h
            obtain ⟨ih1, ih2⟩ := ih _ hsp.1
            exact ⟨ih1, by rw [ih2, hsp.2]⟩
          · rw [if_neg hexp]
            exact ih { s with takes := rest ++ [t], clock := s.clock + 1 } h

theorem stepAction_inv (ft : Nat) (s : SchedulerState) (a : SchedAction)
    (hinv : SchedInv s) : SchedInv (stepAction ft s a) := by
  obtain ⟨hp, ht⟩ := hinv
  unfold SchedInv
  match a with
  | .schedule t =>
      constructor
      · rw [stepAction, scheduleTask_posted, scheduleTask_flag]
        show s.posted + (if s.isPerformingTash = true then 0 else 1) = 1
        by_cases h : s.isPerformingTash = true
        · rw [if_pos h]
          have h1 : s.posted = 1 := by rw [hp, if_pos h]
          omega
        · rw [if_neg h]
          have h1 : s.posted = 0 := by rw [hp, if_neg h]
          omega
      · rw [stepAction, scheduleTask_flag]
        intro hc
        cases hc
  | .driver =>
      rw [stepAction]
      by_cases hpos : s.posted > 0
      · rw [if_pos hpos]
        have hflag : s.isPerformingTash = true := by
          cases hb : s.isPerformingTash
          · rw [hb] at hp
            simp at hp
            omega
          · rfl
        have hone : s.posted = 1 := by rw [hp, if_pos hflag]
        rw [performTask]
        have hkeep := performTaskLoop_keeps ft { s with posted := s.posted - 1 } hflag
        have h2 : (performTaskLoop ft { s with posted := s.posted - 1 }).posted =
            s.posted - 1 := hkeep.2
        by_cases hrem : (performTaskLoop ft { s with posted := s.posted - 1 }).takes.length > 0
        · rw [if_pos hrem]
          constructor
          · show (performTaskLoop ft { s with posted := s.posted - 1 }).posted + 1 =
              if (performTaskLoop ft { s with posted := s.posted - 1 }).isPerformingTash
              then 1 else 0
            rw [hkeep.1, if_pos rfl, h2]
            omega
          · intro hc
            rw [show ({ performTaskLoop ft { s with posted := s.posted - 1 } with
                posted := (performTaskLoop ft { s with posted := s.posted - 1 }).posted + 1 }
                : SchedulerState).isPerformingTash =
              (performTaskLoop ft { s with posted := s.posted - 1 }).isPerformingTash from rfl]
              at hc
            rw [hkeep.1] at hc
            cases hc
        · rw [if_neg hrem]
          constructor
          · show (performTaskLoop ft { s with posted := s.posted - 1 }).posted =
              if (false : Bool) then 1 else 0
            rw [h2]
            simp
            omega
          · intro _
            show (performTaskLoop ft { s with posted := s.posted - 1 }).takes = []
            have hz : (performTaskLoop ft { s with posted := s.posted - 1 }).takes.length = 0 := by
              omega
            exact List.length_eq_zero.mp hz
      · rw [if_neg hpos]
        exact ⟨hp, ht⟩

theorem schedRun_inv (ft : Nat) (acts : List SchedAction) : SchedInv (schedRun ft acts) := by
  rw [schedRun]
  have hinit : SchedInv initSched := by
    refine ⟨by simp [initSched], fun _ => by simp [initSched]⟩
  revert hinit
  generalize initSched = s₀
  intro hinv
  induction acts generalizing s₀ with
  | nil => simpa using hinv
  | cons a rest ih =>
      simp only [List.foldl_cons]
      exact ih _ (stepAction_inv ft s₀ a hinv)

/-- C6: Starting from the initial scheduler state, under any sequence of
task submissions and host driver deliveries: the `isPerformingTash` flag is
set exactly when a driver invocation is pending or a pass is chained (the
pending count equals 1 iff the flag is set), so at most one driver is
pending at any time; `scheduleTask` posts a driver message exactly when it
finds the flag clear (in particular, a `scheduleTask` from within a running
task — which runs with the flag set — never posts a second driver); and
the flag is clear only when the queue is empty (it is cleared only when a
driver pass drains the queue). -/
theorem c6_flag_discipline (ft : Nat) (acts : List SchedAction) :
    (schedRun ft acts).posted =
      (if (schedRun ft acts).isPerformingTash then 1 else 0) ∧
    (schedRun ft acts).posted ≤ 1 ∧
    ((schedRun ft acts).isPerformingTash = false → (schedRun ft acts).takes = []) ∧
    ∀ t : JTask, (scheduleTask t (schedRun ft acts)).posted =
      (schedRun ft acts).posted +
        (if (schedRun ft acts).isPerformingTash then 0 else 1) := by
  obtain ⟨hp, ht⟩ := schedRun_inv ft acts
  refine ⟨hp, ?_, ht, fun t => scheduleTask_posted t _⟩
  rw [hp]
  by_cases h : (schedRun ft acts).isPerformingTash = true
  · rw [if_pos h]
  · rw [if_neg h]
    omega

/-- Witness for C6: submitting one immediately-expiring task and delivering
the driver leaves the flag clear, and then the queue is indeed empty. -/
theorem c6_flag_discipline_witness :
    (schedRun 100 [SchedAction.schedule (JTask.mk 1 0 []), SchedAction.driver]).takes = [] :=
  (c6_flag_discipline 100 [SchedAction.schedule (JTask.mk 1 0 []), SchedAction.driver]).2.2.1
    (by decide)

/-- C5: In each driver pass, tasks are popped from the front of the queue
in submission (FIFO) order; a popped task whose expiration timestamp is at
or before the current time is executed and permanently removed, while a
task whose expiration is still in the future is pushed back to the end of
the queue.  Consequently, for tasks T1 (expires now), T2 (expires far in
the future), T3 (expires now) submitted in that order with an ample frame
budget, the execution order is T1, T3, then T2 once time reaches its
expiration. -/
theorem c5_fifo_with_deferral :
    (∀ (f : Nat) (s : SchedulerState) (id tmo : Nat) (sp rest : List JTask),
      s.takes = JTask.mk id tmo sp :: rest →
      (s.clock + 1 ≥ tmo →
        performTaskLoop (f + 1) s =
          performTaskLoop f (runSpawns sp
            { s with takes := rest, clock := s.clock + 1, executed := s.executed ++ [id] })) ∧
      (s.clock + 1 < tmo →
        performTaskLoop (f + 1) s =
          performTaskLoop f
            { s with takes := rest ++ [JTask.mk id tmo sp], clock := s.clock + 1 })) ∧
    (schedRun 100 [SchedAction.schedule (JTask.mk 1 0 []),
        SchedAction.schedule (JTask.mk 2 50 []),
        SchedAction.schedule (JTask.mk 3 0 []),
        SchedAction.driver]).executed = [1, 3, 2] := by
  constructor
  · intro f s id tmo sp rest h
    constructor
    · intro hge
      rw [performTaskLoop_cons f s (JTask.mk id tmo sp) rest h]
      rw [if_pos (by exact hge)]
      rfl
    · intro hlt
      rw [performTaskLoop_cons f s (JTask.mk id tmo sp) rest h]
      rw [if_neg (by exact Nat.not_le.mpr hlt)]
  · decide

/-- Witness for C5: one immediately-due task at the head of the queue is
executed and removed by the next loop iteration. -/
theorem c5_fifo_with_deferral_witness :
    performTaskLoop 1
      { takes := [JTask.mk 7 0 []], isPerformingTash := true, posted := 0,
        clock := 0, executed := [] } =
    performTaskLoop 0 (runSpawns []
      { takes := [], isPerformingTash := true, posted := 0, clock := 1,
        executed := [7] }) :=
  ((c5_fifo_with_deferral.1 0
      { takes := [JTask.mk 7 0 []], isPerformingTash := true, posted := 0,
        clock := 0, executed := [] } 7 0 [] [] rfl).1 (by decide))

/-! ## Reconstructing the machine's output tree (towards C9) -/

/-- `childOf p q` recognizes an attach of the fiber at `q` as a direct
child of the fiber at `p`. -/
def childOf (p : FiberPath) : FiberPath → Option FiberPath
  | [] => none
  | a :: t => if t = p then some (a :: t) else none

theorem kids_eq (e : Elem) (p : FiberPath) :
    kids e p = (preorderAux e [0]).filterMap (childOf p) := by
  rw [kids, attachLog_eq, List.filterMap_map]
  apply List.filterMap_congr
  intro q hq
  have hne := mem_preorder_elem_ne_nil e q hq
  match q, hne with
  | a :: t, _ => simp [Function.comp, childOf]

mutual

/-- Within a subtree, the parent path of any member other than the
subtree root is also a member. -/
theorem parentMem_aux (c : Elem) (pc : FiberPath) :
    ∀ q ∈ preorderAux c pc, q ≠ pc → q.tail ∈ preorderAux c pc := by
  match c with
  | .mk t pr cs =>
      intro q hq hne
      rw [preorderAux] at hq ⊢
      rcases List.mem_cons.mp hq with h | h
      · exact absurd h hne
      · rcases parentMem_children cs 0 pc q h with h' | h'
        · exact List.mem_cons_of_mem _ h'
        · rw [h']
          exact List.mem_cons_self _ _

/-- Within a forest of sibling subtrees, the parent path of any member is
either a member or the common parent path. -/
theorem parentMem_children (cs : List Elem) (i : Nat) (pc : FiberPath) :
    ∀ q ∈ preorderChildren cs i pc,
      q.tail ∈ preorderChildren cs i pc ∨ q.tail = pc := by
  match cs with
  | [] => intro q hq; rw [preorderChildren] at hq; cases hq
  | c :: rest =>
      intro q hq
      rw [preorderChildren] at hq ⊢
      rcases List.mem_append.mp hq with h | h
      · by_cases hq' : q = i :: pc
        · right
          rw [hq']
          rfl
        · left
          exact List.mem_append_left _ (parentMem_aux c (i :: pc) q h hq')
      · rcases parentMem_children rest (i + 1) pc q h with h' | h'
        · exact Or.inl (List.mem_append_right _ h')
        · exact Or.inr h'

end

theorem suffix_head_eq {i j : Nat} {p q : FiberPath}
    (h1 : (i :: p) <:+ q) (h2 : (j :: p) <:+ q) : i = j := by
  have heq := suffix_eq_of_length h1 h2 (by simp)
  simpa using heq

/-- Root-first navigation (the reverse of `elemAt`'s path order). -/
def elemAtR : Elem → List Nat → Option Elem
  | e, [] => some e
  | e, i :: rs => (e.children[i]?).bind fun c => elemAtR c rs

theorem elemAtR_append (e : Elem) (xs ys : List Nat) :
    elemAtR e (xs ++ ys) = (elemAtR e xs).bind fun c => elemAtR c ys := by
  induction xs generalizing e with
  | nil => simp [elemAtR]
  | cons i rs ih =>
      rw [List.cons_append, elemAtR, elemAtR]
      cases hc : e.children[i]? with
      | none => simp
      | some c => simp [ih c]

theorem elemAt_eq_elemAtR (T : Elem) : ∀ p : FiberPath, elemAt T p = elemAtR T p.reverse := by
  intro p
  induction p with
  | nil => rfl
  | cons i q ih =>
      rw [elemAt, ih, List.reverse_cons, elemAtR_append]
      cases elemAtR T q.reverse with
      | none => simp
      | some c =>
          show c.children[i]? = elemAtR c [i]
          rw [elemAtR]
          cases hc : c.children[i]? with
          | none => rfl
          | some c' => rfl

theorem block_sub_chain : ∀ (cs : List Elem) (ofs j : Nat) (c : Elem) (p₀ : FiberPath),
    cs[j]? = some c →
    ∀ x ∈ preorderAux c ((j + ofs) :: p₀), x ∈ preorderChildren cs ofs p₀ := by
  intro cs
  induction cs with
  | nil => intro ofs j c p₀ hj; simp at hj
  | cons c₀ rest ih =>
      intro ofs j c p₀ hj x hx
      rw [preorderChildren]
      match j with
      | 0 =>
          have hc : c₀ = c := by simpa using hj
          subst hc
          exact List.mem_append_left _ (by simpa using hx)
      | j' + 1 =>
          have hj' : rest[j']? = some c := by simpa using hj
          have harith : j' + 1 + ofs = j' + (ofs + 1) := by omega
          rw [harith] at hx
          exact List.mem_append_right _ (ih (ofs + 1) j' c p₀ hj' x hx)

theorem memR : ∀ (rs : List Nat) (e₀ : Elem) (p₀ : FiberPath) (el : Elem),
    elemAtR e₀ rs = some el → (rs.reverse ++ p₀) ∈ preorderAux e₀ p₀ := by
  intro rs
  induction rs with
  | nil =>
      intro e₀ p₀ el _
      match e₀ with
      | .mk t pr cs => rw [preorderAux]; simp
  | cons i rs' ih =>
      intro e₀ p₀ el h
      rw [elemAtR] at h
      match hc : e₀.children[i]? with
      | none => rw [hc] at h; cases h
      | some c =>
          rw [hc] at h
          have h' : elemAtR c rs' = some el := h
          have hmem := ih c (i :: p₀) el h'
          match e₀ with
          | .mk t pr cs =>
              rw [preorderAux]
              refine List.mem_cons_of_mem _ ?_
              have hx := block_sub_chain cs 0 i c p₀ (by simpa [Elem.children] using hc)
                (rs'.reverse ++ (i :: p₀)) (by simpa using hmem)
              simpa using hx

theorem mem_of_elemAt {T : Elem} {p : FiberPath} {el : Elem}
    (h : elemAt T p = some el) : p ∈ preorderAux T [] := by
  rw [elemAt_eq_elemAtR] at h
  have := memR p.reverse T [] el h
  simpa using this

theorem childOf_none_of_length {p q : FiberPath} (h : p.length + 2 ≤ q.length) :
    childOf p q = none := by
  match q with
  | [] => rfl
  | a :: t =>
      have hne : ¬ (t = p) := by
        intro hc
        subst hc
        rw [List.length_cons] at h
        omega
      rw [childOf, if_neg hne]

theorem childOf_self (p : FiberPath) (a : Nat) : childOf p (a :: p) = some (a :: p) := by
  rw [childOf, if_pos rfl]

theorem childOf_shape {p q r : FiberPath} (h : childOf p q = some r) :
    ∃ a, q = a :: p ∧ r = q := by
  match q with
  | [] => cases h
  | a :: t =>
      rw [childOf] at h
      by_cases hc : t = p
      · rw [if_pos hc] at h
        subst hc
        exact ⟨a, rfl, (Option.some.inj h).symm⟩
      · rw [if_neg hc] at h
        cases h

/-- A sibling-subtree block rooted at a direct child `j :: p` of `p`
contributes exactly that child to the children-of-`p` filter: deeper
members are too long to be direct children. -/
theorem blockFilter_child (c : Elem) (j : Nat) (p : FiberPath) :
    (preorderAux c (j :: p)).filterMap (childOf p) = [j :: p] := by
  match c with
  | .mk t pr cs =>
      rw [preorderAux, List.filterMap_cons, childOf_self]
      have hrest : (preorderChildren cs 0 (j :: p)).filterMap (childOf p) = [] := by
        rw [List.filterMap_eq_nil_iff]
        intro q hq
        rcases preorderChildren_suffix cs 0 (j :: p) q hq with ⟨x, _, hsuf⟩
        refine childOf_none_of_length ?_
        have := hsuf.length_le
        simp only [List.length_cons] at this
        omega
      rw [hrest]

theorem chainFilter_self : ∀ (cs : List Elem) (i : Nat) (p₀ : FiberPath),
    (preorderChildren cs i p₀).filterMap (childOf p₀) =
      (List.range cs.length).map (fun k => (k + i) :: p₀) := by
  intro cs
  induction cs with
  | nil => intro i p₀; simp [preorderChildren]
  | cons c rest ih =>
      intro i p₀
      rw [preorderChildren, List.filterMap_append, blockFilter_child c i p₀, ih (i + 1) p₀]
      rw [List.length_cons, List.range_succ_eq_map]
      simp only [List.map_cons, List.map_map]
      rw [List.singleton_append]
      congr 1
      · simp
      · refine List.map_congr_left ?_
        intro a _
        simp only [Function.comp_apply]
        have h1 : a + (i + 1) = a + 1 + i := by omega
        rw [h1]

/-- Children-of-`p` filter over a subtree's pre-order enumeration: if the
subtree root is itself a direct child of `p`, it is the only contribution;
otherwise, if `p` lies in the subtree, the contributions are exactly `p`'s
children `0 :: p, …, (n-1) :: p` in index order; otherwise there are
none. -/
theorem chFilter (T : Elem) : ∀ (n : Nat) (e₀ : Elem) (p₀ : FiberPath),
    countElems e₀ ≤ n → elemAt T p₀ = some e₀ →
    ∀ (p : FiberPath) (el : Elem), elemAt T p = some el →
    (preorderAux e₀ p₀).filterMap (childOf p) =
      if p₀.tail? = some p then [p₀]
      else if p ∈ preorderAux e₀ p₀ then
        (List.range el.children.length).map (· :: p)
      else [] := by
  intro n
  induction n with
  | zero =>
      intro e₀ p₀ hle _ _ _ _
      exact absurd hle (by have := countElems_pos e₀; omega)
  | succ n ih =>
    intro e₀ p₀ hle hat p el hel
    match e₀ with
    | .mk ty pr cs =>
      rw [preorderAux]
      by_cases hroot : p₀.tail? = some p
      · rw [if_pos hroot]
        match p₀, hroot, hat with
        | [], hroot, _ => simp at hroot
        | a :: t, hroot, hat =>
            have ht : t = p := by simpa using hroot
            subst ht
            simp only [List.filterMap_cons, childOf_self]
            have hrest : (preorderChildren cs 0 (a :: t)).filterMap (childOf t) = [] := by
              rw [List.filterMap_eq_nil_iff]
              intro q hq
              rcases preorderChildren_suffix cs 0 (a :: t) q hq with ⟨x, _, hsuf⟩
              refine childOf_none_of_length ?_
              have := hsuf.length_le
              simp only [List.length_cons] at this
              omega
            rw [hrest]
      · rw [if_neg hroot]
        have hnone : childOf p p₀ = none := by
          match p₀, hroot with
          | [], _ => rfl
          | a :: t, hroot =>
              rw [childOf, if_neg]
              intro hc
              subst hc
              exact hroot rfl
        simp only [List.filterMap_cons, hnone]
        by_cases hpp : p = p₀
        · subst hpp
          have hel' : el = Elem.mk ty pr cs := by
            have h2 := hat.symm.trans hel
            exact (Option.some.inj h2).symm
          rw [chainFilter_self cs 0 p, if_pos (List.mem_cons_self _ _), hel']
          simp only [Elem.children]
          refine List.map_congr_left ?_
          intro a _
          simp
        · have hcsle : countList cs ≤ n := by
            simp only [countElems] at hle
            omega
          have chainlem : ∀ (cs' : List Elem) (i : Nat), cs.drop i = cs' →
              (preorderChildren cs' i p₀).filterMap (childOf p) =
                if p ∈ preorderChildren cs' i p₀ then
                  (List.range el.children.length).map (· :: p)
                else [] := by
            intro cs'
            induction cs' with
            | nil => intro i _; simp [preorderChildren]
            | cons c' rest ihc =>
                intro i hdrop
                have hget : cs[i]? = some c' := by
                  have h0 : (cs.drop i)[0]? = some c' := by rw [hdrop]; simp
                  rw [List.getElem?_drop] at h0
                  simpa using h0
                have hat' : elemAt T (i :: p₀) = some c' :=
                  elemAt_child hat (by simpa [Elem.children] using hget)
                have hdrop1 : cs.drop (i + 1) = rest := by
                  have h1 : List.drop 1 (cs.drop i) = List.drop 1 (c' :: rest) := by rw [hdrop]
                  rw [List.drop_drop] at h1
                  simpa using h1
                have hmemc : c' ∈ cs := by
                  have : c' ∈ cs.drop i := by rw [hdrop]; exact List.mem_cons_self _ _
                  exact List.drop_subset _ _ this
                have hc'le : countElems c' ≤ n :=
                  le_trans (countElems_le_of_mem hmemc) hcsle
                rw [preorderChildren, List.filterMap_append]
                have hblock := ih c' (i :: p₀) hc'le hat' p el hel
                have hbc1 : ¬ ((i :: p₀).tail? = some p) := by
                  intro hc
                  exact hpp (by simpa using hc.symm)
                rw [if_neg hbc1] at hblock
                by_cases hpb : p ∈ preorderAux c' (i :: p₀)
                · rw [if_pos hpb] at hblock
                  rw [hblock]
                  have hnr : p ∉ preorderChildren rest (i + 1) p₀ := by
                    intro hcc
                    rcases preorderChildren_suffix rest (i + 1) p₀ p hcc with ⟨j, hj, hsufj⟩
                    have hsufi : (i :: p₀) <:+ p := preorderAux_suffix c' (i :: p₀) p hpb
                    have := suffix_head_eq hsufi hsufj
                    omega
                  rw [ihc (i + 1) hdrop1, if_neg hnr,
                    if_pos (List.mem_append_left _ hpb)]
                  simp
                · rw [if_neg hpb] at hblock
                  rw [hblock, ihc (i + 1) hdrop1]
                  by_cases hpr : p ∈ preorderChildren rest (i + 1) p₀
                  · rw [if_pos hpr, if_pos (List.mem_append_right _ hpr)]
                    simp
                  · rw [if_neg hpr, if_neg ?_]
                    · simp
                    · intro hc
                      rcases List.mem_append.mp hc with h | h
                      · exact hpb h
                      · exact hpr h
          rw [chainlem cs 0 rfl]
          by_cases hpm : p ∈ preorderChildren cs 0 p₀
          · rw [if_pos hpm, if_pos (List.mem_cons_of_mem _ hpm)]
          · rw [if_neg hpm, if_neg ?_]
            intro hc
            rcases List.mem_cons.mp hc with h | h
            · exact hpp h
            · exact hpm h

theorem rootedAux_eq (e : Elem) :
    preorderAux (rootFiber e) [] = [] :: preorderAux e [0] := preorderRooted_eq e

/-- The children the machine attached under the fiber at `p` are exactly
`p`'s child paths `0 :: p, …, (n-1) :: p`, in index order. -/
theorem kids_spec (e : Elem) (p : FiberPath) (el : Elem)
    (h : elemAt (rootFiber e) p = some el) :
    kids e p = (List.range el.children.length).map (· :: p) := by
  rw [kids_eq]
  rw [chFilter (rootFiber e) (countElems e) e [0] le_rfl
    (by simp [elemAt, rootFiber, Elem.children]) p el h]
  by_cases hp : p = []
  · subst hp
    rw [if_pos (by rfl)]
    have hel : el = rootFiber e := (Option.some.inj h).symm
    rw [hel]
    simp only [rootFiber, Elem.children]
    rfl
  · rw [if_neg (by intro hc; exact hp (by simpa using hc.symm)), if_pos ?_]
    have hmem := mem_of_elemAt h
    rw [rootedAux_eq] at hmem
    rcases List.mem_cons.mp hmem with h' | h'
    · exact absurd h' hp
    · exact h'

theorem countList_eq_zero {cs : List Elem} (h : countList cs = 0) : cs = [] := by
  match cs with
  | [] => rfl
  | c :: rest =>
      exfalso
      have := countElems_pos c
      simp [countList] at h
      omega

theorem range_map_renderChildren : ∀ (cs : List Elem) (g : Nat → DomNode),
    (∀ k c, cs[k]? = some c → g k = render_naive c) →
    (List.range cs.length).map g = renderChildren cs := by
  intro cs
  induction cs with
  | nil => intro g _; simp [renderChildren]
  | cons c rest ih =>
      intro g hg
      rw [List.length_cons, List.range_succ_eq_map, renderChildren]
      simp only [List.map_cons, List.map_map]
      congr 1
      · exact hg 0 c (by simp)
      · exact ih (g ∘ Nat.succ) (fun k c' hk => hg (k + 1) c' (by simpa using hk))

/-- Reading the machine's attach log back as a tree below any non-root
fiber reproduces exactly what the naive recursive render constructs for
that element. -/
theorem reify_spec (e : Elem) : ∀ (d : Nat) (el : Elem) (p : FiberPath),
    countElems el ≤ d + 1 → elemAt (rootFiber e) p = some el → p ≠ [] →
    reify e d p = render_naive el := by
  intro d
  induction d with
  | zero =>
      intro el p hle hat _
      match el, hle, hat with
      | .mk t pr cs, hle, hat =>
          have hcs : cs = [] := by
            apply countList_eq_zero
            simp only [countElems] at hle
            omega
          subst hcs
          rw [reify]
          simp only [nodeAt, hat]
          by_cases ht : t = some "TEXT_ELEMENT"
          · simp [createDom, render_naive, renderChildren, Elem.type, Elem.props, ht]
          · simp [createDom, render_naive, renderChildren, Elem.type, Elem.props, ht]
  | succ d ihd =>
      intro el p hle hat hne
      rw [reify, kids_spec e p el hat, List.map_map]
      match el, hle, hat with
      | .mk t pr cs, hle, hat =>
          have hkids : (List.range (Elem.mk t pr cs).children.length).map
              ((reify e d) ∘ (· :: p)) = renderChildren cs := by
            simp only [Elem.children]
            apply range_map_renderChildren
            intro k c hk
            simp only [Function.comp_apply]
            apply ihd c (k :: p) ?_ ?_ (by simp)
            · have hcm : c ∈ cs := by
                have : cs.drop k ≠ [] := by
                  intro hcon
                  rw [List.getElem?_eq_none_iff.mpr ?_] at hk
                  · cases hk
                  · have := congrArg List.length hcon
                    rw [List.length_drop] at this
                    simp at this
                    omega
                have h0 : (cs.drop k)[0]? = some c := by
                  rw [List.getElem?_drop]
                  simpa using hk
                match hd : cs.drop k with
                | [] => exact absurd hd this
                | c' :: r =>
                    rw [hd] at h0
                    have hcc : c' = c := by simpa using h0
                    subst hcc
                    exact List.drop_subset _ _ (by rw [hd]; exact List.mem_cons_self _ _)
              have h1 : countElems c ≤ countList cs := countElems_le_of_mem hcm
              have h2 : countElems (Elem.mk t pr cs) = 1 + countList cs := by
                simp [countElems]
              omega
            · exact elemAt_child hat (by simpa [Elem.children] using hk)
          rw [hkids]
          simp only [nodeAt, hat]
          by_cases ht : t = some "TEXT_ELEMENT"
          · simp [createDom, render_naive, withKids, Elem.type, Elem.props, ht]
          · simp [createDom, render_naive, withKids, Elem.type, Elem.props, ht]

/-- C9: For every element tree (and container), the complete interruptible
fiber traversal — `render` seeding the root, then repeated
`performUnitOfWork` until completion — leaves under the container exactly
the same output tree (same constructed nodes, same attributes, same
parent/child structure) as the naive uninterruptible recursive render of
`src/unnamed/part_000`: a single child equal to `render_naive e`. -/
theorem c9_fiber_equals_naive (e : Elem) : containerChildren e = [render_naive e] := by
  rw [containerChildren, kids_spec e [] (rootFiber e) (by rfl)]
  have h1 : (List.range (rootFiber e).children.length).map (· :: ([] : FiberPath)) = [[0]] := by
    simp only [rootFiber, Elem.children]
    rfl
  rw [h1]
  simp only [List.map_cons, List.map_nil]
  congr 1
  apply reify_spec e (countElems e) e [0] (by omega) ?_ (by simp)
  simp [elemAt, rootFiber, Elem.children]
